import Mathlib

/-!
# Shallow embedding of the DES implementation (`des.py`)

Bytes are modelled as `Nat` (a Python byte is `< 256`), bit arrays as
`List Nat` whose entries are `0`/`1`, exactly as the Python code keeps
them in plain lists.  Python exceptions are modelled with `Except`:
`ValueError` raised by the explicit length check and `IndexError`
raised by `plaintext[-1]` on an empty buffer.
-/

namespace DES

/-- Initial Permutation table (`DES.IP`). -/
def IP : List Nat :=
  [58, 50, 42, 34, 26, 18, 10, 2,
   60, 52, 44, 36, 28, 20, 12, 4,
   62, 54, 46, 38, 30, 22, 14, 6,
   64, 56, 48, 40, 32, 24, 16, 8,
   57, 49, 41, 33, 25, 17, 9, 1,
   59, 51, 43, 35, 27, 19, 11, 3,
   61, 53, 45, 37, 29, 21, 13, 5,
   63, 55, 47, 39, 31, 23, 15, 7]

/-- Inverse Initial Permutation table (`DES.IP_INV`). -/
def IP_INV : List Nat :=
  [40, 8, 48, 16, 56, 24, 64, 32,
   39, 7, 47, 15, 55, 23, 63, 31,
   38, 6, 46, 14, 54, 22, 62, 30,
   37, 5, 45, 13, 53, 21, 61, 29,
   36, 4, 44, 12, 52, 20, 60, 28,
   35, 3, 43, 11, 51, 19, 59, 27,
   34, 2, 42, 10, 50, 18, 58, 26,
   33, 1, 41, 9, 49, 17, 57, 25]

/-- Expansion table (`DES.E`). -/
def E : List Nat :=
  [32, 1, 2, 3, 4, 5,
   4, 5, 6, 7, 8, 9,
   8, 9, 10, 11, 12, 13,
   12, 13, 14, 15, 16, 17,
   16, 17, 18, 19, 20, 21,
   20, 21, 22, 23, 24, 25,
   24, 25, 26, 27, 28, 29,
   28, 29, 30, 31, 32, 1]

/-- Permutation Choice 1 table (`DES.PC1`). -/
def PC1 : List Nat :=
  [57, 49, 41, 33, 25, 17, 9,
   1, 58, 50, 42, 34, 26, 18,
   10, 2, 59, 51, 43, 35, 27,
   19, 11, 3, 60, 52, 44, 36,
   63, 55, 47, 39, 31, 23, 15,
   7, 62, 54, 46, 38, 30, 22,
   14, 6, 61, 53, 45, 37, 29,
   21, 13, 5, 28, 20, 12, 4]

/-- Permutation Choice 2 table (`DES.PC2`). -/
def PC2 : List Nat :=
  [14, 17, 11, 24, 1, 5,
   3, 28, 15, 6, 21, 10,
   23, 19, 12, 4, 26, 8,
   16, 7, 27, 20, 13, 2,
   41, 52, 31, 37, 47, 55,
   30, 40, 51, 45, 33, 48,
   44, 49, 39, 56, 34, 53,
   46, 42, 50, 36, 29, 32]

/-- Left circular shift schedule (`DES.SHIFT_SCHEDULE`). -/
def SHIFT_SCHEDULE : List Nat := [1, 1, 2, 2, 2, 2, 2, 2, 1, 2, 2, 2, 2, 2, 2, 1]

/-- The eight S-boxes (`DES.S_BOXES`). -/
def S_BOXES : List (List (List Nat)) :=
  [ [ [14, 4, 13, 1, 2, 15, 11, 8, 3, 10, 6, 12, 5, 9, 0, 7],
      [0, 15, 7, 4, 14, 2, 13, 1, 10, 6, 12, 11, 9, 5, 3, 8],
      [4, 1, 14, 8, 13, 6, 2, 11, 15, 12, 9, 7, 3, 10, 5, 0],
      [15, 12, 8, 2, 4, 9, 1, 7, 5, 11, 3, 14, 10, 0, 6, 13] ],
    [ [15, 1, 8, 14, 6, 11, 3, 4, 9, 7, 2, 13, 12, 0, 5, 10],
      [3, 13, 4, 7, 15, 2, 8, 14, 12, 0, 1, 10, 6, 9, 11, 5],
      [0, 14, 7, 11, 10, 4, 13, 1, 5, 8, 12, 6, 9, 3, 2, 15],
      [13, 8, 10, 1, 3, 15, 4, 2, 11, 6, 7, 12, 0, 5, 14, 9] ],
    [ [10, 0, 9, 14, 6, 3, 15, 5, 1, 13, 12, 7, 11, 4, 2, 8],
      [13, 7, 0, 9, 3, 4, 6, 10, 2, 8, 5, 14, 12, 11, 15, 1],
      [13, 6, 4, 9, 8, 15, 3, 0, 11, 1, 2, 12, 5, 10, 14, 7],
      [1, 10, 13, 0, 6, 9, 8, 7, 4, 15, 14, 3, 11, 5, 2, 12] ],
    [ [7, 13, 14, 3, 0, 6, 9, 10, 1, 2, 8, 5, 11, 12, 4, 15],
      [13, 8, 11, 5, 6, 15, 0, 3, 4, 7, 2, 12, 1, 10, 14, 9],
      [10, 6, 9, 0, 12, 11, 7, 13, 15, 1, 3, 14, 5, 2, 8, 4],
      [3, 15, 0, 6, 10, 1, 13, 8, 9, 4, 5, 11, 12, 7, 2, 14] ],
    [ [2, 12, 4, 1, 7, 10, 11, 6, 8, 5, 3, 15, 13, 0, 14, 9],
      [14, 11, 2, 12, 4, 7, 13, 1, 5, 0, 15, 10, 3, 9, 8, 6],
      [4, 2, 1, 11, 10, 13, 7, 8, 15, 9, 12, 5, 6, 3, 0, 14],
      [11, 8, 12, 7, 1, 14, 2, 13, 6, 15, 0, 9, 10, 4, 5, 3] ],
    [ [12, 1, 10, 15, 9, 2, 6, 8, 0, 13, 3, 4, 14, 7, 5, 11],
      [10, 15, 4, 2, 7, 12, 9, 5, 6, 1, 13, 14, 0, 11, 3, 8],
      [9, 14, 15, 5, 2, 8, 12, 3, 7, 0, 4, 10, 1, 13, 11, 6],
      [4, 3, 2, 12, 9, 5, 15, 10, 11, 14, 1, 7, 6, 0, 8, 13] ],
    [ [4, 11, 2, 14, 15, 0, 8, 13, 3, 12, 9, 7, 5, 10, 6, 1],
      [13, 0, 11, 7, 4, 9, 1, 10, 14, 3, 5, 12, 2, 15, 8, 6],
      [1, 4, 11, 13, 12, 3, 7, 14, 10, 15, 6, 8, 0, 5, 9, 2],
      [6, 11, 13, 8, 1, 4, 10, 7, 9, 5, 0, 15, 14, 2, 3, 12] ],
    [ [13, 2, 8, 4, 6, 15, 11, 1, 10, 9, 3, 14, 5, 0, 12, 7],
      [1, 15, 13, 8, 10, 3, 7, 4, 12, 5, 6, 11, 0, 14, 9, 2],
      [7, 11, 4, 1, 9, 12, 14, 2, 0, 6, 10, 13, 15, 3, 5, 8],
      [2, 1, 14, 7, 4, 10, 8, 13, 15, 12, 9, 0, 3, 5, 6, 11] ] ]

/-- Permutation P table (`DES.P`). -/
def P : List Nat :=
  [16, 7, 20, 21,
   29, 12, 28, 17,
   1, 15, 23, 26,
   5, 18, 31, 10,
   2, 8, 24, 14,
   32, 27, 3, 9,
   19, 13, 30, 6,
   22, 11, 4, 25]

/-- The eight MSB-first bits of one byte (the inner loop of
`_bytes_to_bit_array`: `(byte >> i) & 1` for `i = 7 .. 0`). -/
def bits_of_byte (byte : Nat) : List Nat :=
  (List.range 8).map (fun i => (byte >>> (7 - i)) &&& 1)

/-- `DES._bytes_to_bit_array`: bytes to MSB-first bit array. -/
def bytes_to_bit_array (data : List Nat) : List Nat :=
  (data.map bits_of_byte).flatten

/-- One byte rebuilt from eight bits (the inner loop of
`_bit_array_to_bytes`: `byte = (byte << 1) | bits[i + j]`). -/
def byte_of_bits (bits : List Nat) : Nat :=
  bits.foldl (fun byte b => (byte <<< 1) ||| b) 0

/-- `DES._bit_array_to_bytes`: bit array to bytes, 8 bits per byte. -/
def bit_array_to_bytes (bits : List Nat) : List Nat :=
  (List.range ((bits.length + 7) / 8)).map (fun i => byte_of_bits ((bits.drop (8 * i)).take 8))

/-- `DES._permute`: `[block[table[i] - 1] for i in range(len(table))]`. -/
def permute (block table : List Nat) : List Nat :=
  table.map (fun j => block.getD (j - 1) 0)

/-- `DES._left_circular_shift`: `bits[shift:] + bits[:shift]`. -/
def left_circular_shift (bits : List Nat) (shift : Nat) : List Nat :=
  bits.drop shift ++ bits.take shift

/-- The body of the subkey generation loop in `DES._generate_subkeys`:
shift both halves by the scheduled amount, then append `PC2(C + D)`. -/
def subkey_loop (c d : List Nat) : List Nat → List (List Nat)
  | [] => []
  | s :: rest =>
    let c2 := left_circular_shift c s
    let d2 := left_circular_shift d s
    permute (c2 ++ d2) PC2 :: subkey_loop c2 d2 rest

/-- `DES._generate_subkeys` applied to the bit array of the master key. -/
def generate_subkeys (key : List Nat) : List (List Nat) :=
  let key_56 := permute key PC1
  subkey_loop (key_56.take 28) (key_56.drop 28) SHIFT_SCHEDULE

/-- `DES._xor`: `[a[i] ^ b[i] for i in range(len(a))]`. -/
def xor_bits (a b : List Nat) : List Nat :=
  (List.range a.length).map (fun i => (a.getD i 0) ^^^ (b.getD i 0))

/-- `DES._s_box_substitution`: 48-bit block to 32-bit block. -/
def s_box_substitution (block : List Nat) : List Nat :=
  ((List.range 8).map (fun i =>
    let group := (block.drop (6 * i)).take 6
    let row := ((group.getD 0 0) <<< 1) ||| group.getD 5 0
    let col := ((group.getD 1 0) <<< 3) ||| ((group.getD 2 0) <<< 2) |||
               ((group.getD 3 0) <<< 1) ||| group.getD 4 0
    let value := ((S_BOXES.getD i []).getD row []).getD col 0
    (List.range 4).map (fun j => (value >>> (3 - j)) &&& 1))).flatten

/-- `DES._f_function`: expansion, subkey XOR, S-boxes, permutation P. -/
def f_function (r subkey : List Nat) : List Nat :=
  permute (s_box_substitution (xor_bits (permute r E) subkey)) P

/-- `DES._des_round`: one Feistel round, `(L, R) ↦ (R, L ⊕ f(R, K))`. -/
def des_round (lr : List Nat × List Nat) (subkey : List Nat) : List Nat × List Nat :=
  (lr.2, xor_bits lr.1 (f_function lr.2 subkey))

/-- `DES.encrypt_block`: IP, 16 rounds with the subkeys in order,
final swap, inverse IP. -/
def encrypt_block (subkeys : List (List Nat)) (plaintext_block : List Nat) : List Nat :=
  let block := permute plaintext_block IP
  let lr := subkeys.foldl des_round (block.take 32, block.drop 32)
  permute (lr.2 ++ lr.1) IP_INV

/-- `DES.decrypt_block`: identical structure, subkeys in reverse order
(`self.subkeys[15 - i]`). -/
def decrypt_block (subkeys : List (List Nat)) (ciphertext_block : List Nat) : List Nat :=
  let block := permute ciphertext_block IP
  let lr := subkeys.reverse.foldl des_round (block.take 32, block.drop 32)
  permute (lr.2 ++ lr.1) IP_INV

/-- The 8-byte chunks visited by `for i in range(0, len(data), 8)`. -/
def blocks8 (data : List Nat) : List (List Nat) :=
  (List.range ((data.length + 7) / 8)).map (fun i => (data.drop (8 * i)).take 8)

/-- The padding step of `DES.encrypt`: `padding_length = 8 - len % 8`;
append only when `padding_length < 8`. -/
def pad (plaintext : List Nat) : List Nat :=
  let padding_length := 8 - plaintext.length % 8
  if padding_length < 8 then plaintext ++ List.replicate padding_length padding_length
  else plaintext

/-- `DES.encrypt`: pad, then encrypt each 8-byte block independently. -/
def encrypt (key plaintext : List Nat) : List Nat :=
  let subkeys := generate_subkeys (bytes_to_bit_array key)
  let padded := pad plaintext
  ((blocks8 padded).map
    (fun block => bit_array_to_bytes (encrypt_block subkeys (bytes_to_bit_array block)))).flatten

/-- Python exceptions surfaced by `DES.decrypt`. -/
inductive PyError : Type
  | valueError : PyError
  | indexError : PyError
deriving DecidableEq

/-- The padding-removal step of `DES.decrypt` (`padding_length = plaintext[-1]`,
then conditional strip).  Python slices with a possibly-zero negative index:
`plaintext[-0:]` is the whole buffer and `plaintext[:-0]` is empty. -/
def strip_padding (plaintext : List Nat) : List Nat :=
  let padding_length := plaintext.getD (plaintext.length - 1) 0
  if padding_length < 8 ∧
      ∀ b ∈ (if padding_length = 0 then plaintext
             else plaintext.drop (plaintext.length - padding_length)), b = padding_length then
    if padding_length = 0 then [] else plaintext.take (plaintext.length - padding_length)
  else plaintext

/-- `DES.decrypt`: length check, blockwise decryption, padding removal.
`plaintext[-1]` on an empty buffer raises `IndexError`. -/
def decrypt (key ciphertext : List Nat) : Except PyError (List Nat) :=
  if ciphertext.length % 8 ≠ 0 then .error .valueError
  else
    let subkeys := generate_subkeys (bytes_to_bit_array key)
    let plaintext := ((blocks8 ciphertext).map
      (fun block => bit_array_to_bytes (decrypt_block subkeys (bytes_to_bit_array block)))).flatten
    if plaintext.length = 0 then .error .indexError
    else .ok (strip_padding plaintext)


/-! ## Specification-side definitions (formalizing the claims' wording,
for comparison with the code-side definitions above) -/

/-- Specification-side shift amount for round `i` (1-based): 1 bit in rounds
1, 2, 9, 16 and 2 bits otherwise. -/
def spec_shift_amount (round : Nat) : Nat :=
  if round = 1 ∨ round = 2 ∨ round = 9 ∨ round = 16 then 1 else 2

/-- Specification-side accumulated shift after `round` rounds. -/
def spec_total_shift (round : Nat) : Nat :=
  ((List.range round).map (fun i => spec_shift_amount (i + 1))).sum

/-- Specification-side subkey of round `i` (1-based): rotate the two 28-bit
halves of the PC1 output by the accumulated shift and apply PC2. -/
def spec_subkey (key : List Nat) (round : Nat) : List Nat :=
  permute ((((permute key PC1).take 28).rotate (spec_total_shift round)) ++
           (((permute key PC1).drop 28).rotate (spec_total_shift round))) PC2

/-- The strip rule exactly as the specification states it: read the last byte
`P`; if `P < 8` and the final `P` bytes all equal `P`, drop those `P` bytes,
otherwise return the buffer unchanged.  (Spec-side definition, to be compared
with `strip_padding` from the code.) -/
def spec_strip (pt : List Nat) : List Nat :=
  let p := pt.getD (pt.length - 1) 0
  if p < 8 ∧ ∀ b ∈ pt.drop (pt.length - p), b = p then pt.take (pt.length - p) else pt

/-- The intermediate `plaintext` buffer built by the block loop of
`DES.decrypt`, before padding removal. -/
def decrypted_buffer (key ct : List Nat) : List Nat :=
  ((blocks8 ct).map (fun block => bit_array_to_bytes
    (decrypt_block (generate_subkeys (bytes_to_bit_array key)) (bytes_to_bit_array block)))).flatten

/-- The key bytes `0x133457799BBCDFF1` of the classic published test vector. -/
def test_key : List Nat := [0x13, 0x34, 0x57, 0x79, 0x9B, 0xBC, 0xDF, 0xF1]

/-! ## Generic lemmas about `permute` -/

theorem permute_length (b t : List Nat) : (permute b t).length = t.length := by
  simp [permute]

/-- Composing two permutations is permuting by the composed table, provided
every index of the outer table points inside the inner table. -/
theorem permute_permute (b t1 t2 : List Nat)
    (h : ∀ j ∈ t2, j - 1 < t1.length) :
    permute (permute b t1) t2 = permute b (t2.map (fun j => t1.getD (j - 1) 0)) := by
  simp only [permute, List.map_map]
  apply List.map_congr_left
  intro j hj
  have hlt : j - 1 < t1.length := h j hj
  simp only [Function.comp]
  rw [List.getD_eq_getElem?_getD, List.getElem?_map, List.getElem?_eq_getElem hlt]
  simp [List.getD_eq_getElem?_getD, List.getElem?_eq_getElem hlt]

/-- Permuting with the identity table `[1, …, n]` returns the input when the
input has length `n`. -/
theorem permute_identity (b : List Nat) (n : Nat) (hb : b.length = n) :
    permute b ((List.range n).map (fun i => i + 1)) = b := by
  subst hb
  simp only [permute, List.map_map]
  apply List.ext_getElem
  · simp
  · intro i h1 h2
    simp [List.getElem?_eq_getElem h2]

/-! ## XOR lemmas -/

theorem xor_bits_length (a b : List Nat) : (xor_bits a b).length = a.length := by
  simp [xor_bits]

theorem xor_bits_getD (a b : List Nat) (i : Nat) (h : i < a.length) :
    (xor_bits a b).getD i 0 = (a.getD i 0) ^^^ (b.getD i 0) := by
  simp only [xor_bits]
  rw [List.getD_eq_getElem?_getD, List.getElem?_map]
  simp [List.getElem?_range, h]

/-- A list of naturals is recovered from its `getD` values. -/
theorem list_eq_map_range_getD (a : List Nat) :
    (List.range a.length).map (fun i => a.getD i 0) = a := by
  apply List.ext_getElem
  · simp
  · intro i h1 h2
    simp [List.getD_eq_getElem?_getD, List.getElem?_eq_getElem h2]

/-- XORing twice with the same mask is the identity (`(x ^ m) ^ m = x`
holds on every component, and the length is preserved). -/
theorem xor_bits_cancel (a m : List Nat) : xor_bits (xor_bits a m) m = a := by
  conv_rhs => rw [← list_eq_map_range_getD a]
  rw [show xor_bits (xor_bits a m) m =
      (List.range (xor_bits a m).length).map
        (fun i => ((xor_bits a m).getD i 0) ^^^ (m.getD i 0)) from rfl]
  rw [xor_bits_length a m]
  apply List.map_congr_left
  intro i hi
  have hia : i < a.length := List.mem_range.mp hi
  rw [xor_bits_getD a m i hia, Nat.xor_assoc, Nat.xor_self, Nat.xor_zero]

/-! ## Feistel structure -/

/-- Lengths of the two halves are preserved by a round: the new left half is
the old right half and the new right half has the length of the old left. -/
theorem des_round_lengths (lr : List Nat × List Nat) (sk : List Nat) :
    ((des_round lr sk).1.length = lr.2.length) ∧ ((des_round lr sk).2.length = lr.1.length) := by
  simp [des_round, xor_bits_length]

theorem foldl_des_round_lengths (ks : List (List Nat)) (lr : List Nat × List Nat)
    (h1 : lr.1.length = 32) (h2 : lr.2.length = 32) :
    (ks.foldl des_round lr).1.length = 32 ∧ (ks.foldl des_round lr).2.length = 32 := by
  induction ks generalizing lr with
  | nil => exact ⟨h1, h2⟩
  | cons k rest ih =>
    simp only [List.foldl_cons]
    exact ih (des_round lr k) (by simp [des_round, h2]) (by simp [des_round, xor_bits_length, h1])

/-- The key fact of the Feistel network: folding the rounds over the reversed
subkey list, starting from the swapped final state, returns the swapped
initial state. -/
theorem foldl_des_round_reverse (ks : List (List Nat)) (L R : List Nat) :
    ks.reverse.foldl des_round
      ((ks.foldl des_round (L, R)).2, (ks.foldl des_round (L, R)).1) = (R, L) := by
  induction ks generalizing L R with
  | nil => rfl
  | cons k rest ih =>
    simp only [List.foldl_cons, List.reverse_cons, List.foldl_append]
    have step : des_round (L, R) k = (R, xor_bits L (f_function R k)) := rfl
    rw [step, ih R (xor_bits L (f_function R k))]
    simp only [List.foldl_cons, List.foldl_nil, des_round]
    rw [xor_bits_cancel]

/-! ## `IP` and `IP_INV` are inverse permutations -/

theorem permute_IP_IP_INV (b : List Nat) (hb : b.length = 64) :
    permute (permute b IP) IP_INV = b := by
  rw [permute_permute b IP IP_INV (by decide)]
  rw [show IP_INV.map (fun j => IP.getD (j - 1) 0) = (List.range 64).map (fun i => i + 1) by decide]
  exact permute_identity b 64 hb

theorem permute_IP_INV_IP (b : List Nat) (hb : b.length = 64) :
    permute (permute b IP_INV) IP = b := by
  rw [permute_permute b IP_INV IP (by decide)]
  rw [show IP.map (fun j => IP_INV.getD (j - 1) 0) = (List.range 64).map (fun i => i + 1) by decide]
  exact permute_identity b 64 hb

/-! ## Block-level round trip -/

theorem encrypt_block_length (ks : List (List Nat)) (b : List Nat) :
    (encrypt_block ks b).length = 64 := by
  simp [encrypt_block, permute_length]
  decide

theorem decrypt_block_length (ks : List (List Nat)) (b : List Nat) :
    (decrypt_block ks b).length = 64 := by
  simp [decrypt_block, permute_length]
  decide

/-- Decrypting an encrypted 64-bit block returns the block, for any list of
subkeys: the Feistel structure with reversed subkey order undoes itself. -/
theorem decrypt_block_encrypt_block (ks : List (List Nat)) (b : List Nat)
    (hb : b.length = 64) : decrypt_block ks (encrypt_block ks b) = b := by
  have hip : (permute b IP).length = 64 := by rw [permute_length]; decide
  set L0 := (permute b IP).take 32 with hL0
  set R0 := (permute b IP).drop 32 with hR0
  have hL0len : L0.length = 32 := by rw [hL0, List.length_take, hip]; decide
  have hR0len : R0.length = 32 := by rw [hR0, List.length_drop, hip]
  set lr := ks.foldl des_round (L0, R0) with hlr
  have hlen := foldl_des_round_lengths ks (L0, R0) hL0len hR0len
  have happ : (lr.2 ++ lr.1).length = 64 := by
    rw [List.length_append, hlen.1, hlen.2]
  have henc : encrypt_block ks b = permute (lr.2 ++ lr.1) IP_INV := rfl
  rw [decrypt_block, henc, permute_IP_INV_IP _ happ]
  have htake : (lr.2 ++ lr.1).take 32 = lr.2 := by
    rw [← hlen.2, List.take_left]
  have hdrop : (lr.2 ++ lr.1).drop 32 = lr.1 := by
    rw [← hlen.2, List.drop_left]
  rw [htake, hdrop, hlr, foldl_des_round_reverse ks L0 R0]
  rw [show ((R0, L0).2 ++ (R0, L0).1) = L0 ++ R0 from rfl, hL0, hR0, List.take_append_drop]
  exact permute_IP_IP_INV b hb

/-! ## Byte/bit codec lemmas -/

theorem and_one_le_one (x : Nat) : x &&& 1 ≤ 1 := by
  rw [Nat.and_one_is_mod]
  exact Nat.le_of_lt_succ (Nat.mod_lt x (by decide))

theorem two_mul_or_one (x : Nat) : 2 * x ||| 1 = 2 * x + 1 := by
  apply Nat.eq_of_testBit_eq
  intro i
  rw [Nat.testBit_or]
  cases i with
  | zero =>
    rw [Nat.testBit_zero, Nat.testBit_zero, Nat.testBit_zero]
    simp [Nat.mul_add_mod]
  | succ j =>
    rw [Nat.testBit_succ, Nat.testBit_succ, Nat.testBit_succ]
    have h1 : (1 : Nat) / 2 = 0 := rfl
    have h2 : (2 * x) / 2 = x := by omega
    have h3 : (2 * x + 1) / 2 = x := by omega
    rw [h1, h2, h3, Nat.zero_testBit, Bool.or_false]

theorem shiftLeft_one_or (x b : Nat) (hb : b ≤ 1) : (x <<< 1) ||| b = 2 * x + b := by
  have hx : x <<< 1 = 2 * x := by rw [Nat.shiftLeft_eq]; ring
  rw [hx]
  interval_cases b
  · simp
  · exact two_mul_or_one x

theorem bits_of_byte_eq (b : Nat) :
    bits_of_byte b = [(b >>> 7) &&& 1, (b >>> 6) &&& 1, (b >>> 5) &&& 1, (b >>> 4) &&& 1,
      (b >>> 3) &&& 1, (b >>> 2) &&& 1, (b >>> 1) &&& 1, (b >>> 0) &&& 1] := rfl

theorem bits_of_byte_length (b : Nat) : (bits_of_byte b).length = 8 := rfl

theorem bits_of_byte_le_one (b : Nat) : ∀ x ∈ bits_of_byte b, x ≤ 1 := by
  intro x hx
  rw [bits_of_byte_eq] at hx
  simp only [List.mem_cons, List.not_mem_nil, or_false] at hx
  rcases hx with h | h | h | h | h | h | h | h <;> rw [h] <;> exact and_one_le_one _

theorem byte_of_bits_eq (b7 b6 b5 b4 b3 b2 b1 b0 : Nat)
    (h7 : b7 ≤ 1) (h6 : b6 ≤ 1) (h5 : b5 ≤ 1) (h4 : b4 ≤ 1)
    (h3 : b3 ≤ 1) (h2 : b2 ≤ 1) (h1 : b1 ≤ 1) (h0 : b0 ≤ 1) :
    byte_of_bits [b7, b6, b5, b4, b3, b2, b1, b0] =
      128 * b7 + 64 * b6 + 32 * b5 + 16 * b4 + 8 * b3 + 4 * b2 + 2 * b1 + b0 := by
  simp only [byte_of_bits, List.foldl_cons, List.foldl_nil]
  rw [shiftLeft_one_or _ _ h0, shiftLeft_one_or _ _ h1, shiftLeft_one_or _ _ h2,
    shiftLeft_one_or _ _ h3, shiftLeft_one_or _ _ h4, shiftLeft_one_or _ _ h5,
    shiftLeft_one_or _ _ h6, shiftLeft_one_or _ _ h7]
  ring

/-- A byte below 256 survives the round trip through its bit array. -/
theorem byte_of_bits_bits_of_byte (b : Nat) (hb : b < 256) :
    byte_of_bits (bits_of_byte b) = b := by
  rw [bits_of_byte_eq,
    byte_of_bits_eq _ _ _ _ _ _ _ _ (and_one_le_one _) (and_one_le_one _) (and_one_le_one _)
      (and_one_le_one _) (and_one_le_one _) (and_one_le_one _) (and_one_le_one _)
      (and_one_le_one _)]
  simp only [Nat.and_one_is_mod, Nat.shiftRight_eq_div_pow]
  norm_num
  omega

/-- Eight bits survive the round trip through the byte they encode. -/
theorem bits_of_byte_byte_of_bits (l : List Nat) (hlen : l.length = 8)
    (hb : ∀ x ∈ l, x ≤ 1) : bits_of_byte (byte_of_bits l) = l := by
  rcases l with _ | ⟨b7, l⟩; · simp at hlen
  rcases l with _ | ⟨b6, l⟩; · simp at hlen
  rcases l with _ | ⟨b5, l⟩; · simp at hlen
  rcases l with _ | ⟨b4, l⟩; · simp at hlen
  rcases l with _ | ⟨b3, l⟩; · simp at hlen
  rcases l with _ | ⟨b2, l⟩; · simp at hlen
  rcases l with _ | ⟨b1, l⟩; · simp at hlen
  rcases l with _ | ⟨b0, l⟩; · simp at hlen
  rcases l with _ | ⟨x, l⟩
  · have h7 : b7 ≤ 1 := hb b7 (by simp)
    have h6 : b6 ≤ 1 := hb b6 (by simp)
    have h5 : b5 ≤ 1 := hb b5 (by simp)
    have h4 : b4 ≤ 1 := hb b4 (by simp)
    have h3 : b3 ≤ 1 := hb b3 (by simp)
    have h2 : b2 ≤ 1 := hb b2 (by simp)
    have h1 : b1 ≤ 1 := hb b1 (by simp)
    have h0 : b0 ≤ 1 := hb b0 (by simp)
    rw [byte_of_bits_eq _ _ _ _ _ _ _ _ h7 h6 h5 h4 h3 h2 h1 h0, bits_of_byte_eq]
    simp only [List.cons.injEq, and_true]
    simp only [Nat.and_one_is_mod, Nat.shiftRight_eq_div_pow]
    norm_num
    omega
  · simp at hlen

/-! ## Bit-array level codec lemmas -/

theorem bytes_to_bit_array_nil : bytes_to_bit_array [] = [] := rfl

theorem bytes_to_bit_array_cons (x : Nat) (xs : List Nat) :
    bytes_to_bit_array (x :: xs) = bits_of_byte x ++ bytes_to_bit_array xs := by
  simp [bytes_to_bit_array]

theorem bytes_to_bit_array_length (data : List Nat) :
    (bytes_to_bit_array data).length = 8 * data.length := by
  induction data with
  | nil => rfl
  | cons x xs ih =>
    rw [bytes_to_bit_array_cons, List.length_append, ih, bits_of_byte_length, List.length_cons]
    ring

theorem bytes_to_bit_array_le_one (data : List Nat) :
    ∀ x ∈ bytes_to_bit_array data, x ≤ 1 := by
  intro x hx
  rw [bytes_to_bit_array, List.mem_flatten] at hx
  obtain ⟨l, hl, hxl⟩ := hx
  rw [List.mem_map] at hl
  obtain ⟨b, _, rfl⟩ := hl
  exact bits_of_byte_le_one b x hxl

theorem bit_array_to_bytes_nil : bit_array_to_bytes [] = [] := rfl

theorem bit_array_to_bytes_length (bits : List Nat) :
    (bit_array_to_bytes bits).length = (bits.length + 7) / 8 := by
  simp [bit_array_to_bytes]

theorem bit_array_to_bytes_append (t8 rest : List Nat) (h : t8.length = 8) :
    bit_array_to_bytes (t8 ++ rest) = byte_of_bits t8 :: bit_array_to_bytes rest := by
  have hlen : (t8 ++ rest).length = 8 + rest.length := by rw [List.length_append, h]
  have hdiv : ((t8 ++ rest).length + 7) / 8 = (rest.length + 7) / 8 + 1 := by
    rw [hlen]; omega
  rw [bit_array_to_bytes, hdiv, List.range_succ_eq_map]
  rw [List.map_cons, List.map_map]
  congr 1
  · rw [Nat.mul_zero, List.drop_zero, ← h, List.take_left]
  · rw [bit_array_to_bytes]
    apply List.map_congr_left
    intro i _
    simp only [Function.comp]
    have hd : (t8 ++ rest).drop (8 * Nat.succ i) = rest.drop (8 * i) := by
      rw [show 8 * Nat.succ i = t8.length + 8 * i by rw [h]; omega]
      exact List.drop_append (8 * i)
    rw [hd]

theorem blocks8_nil : blocks8 [] = [] := rfl

theorem blocks8_cons (b8 rest : List Nat) (h : b8.length = 8) :
    blocks8 (b8 ++ rest) = b8 :: blocks8 rest := by
  have hdiv : ((b8 ++ rest).length + 7) / 8 = (rest.length + 7) / 8 + 1 := by
    rw [List.length_append, h]; omega
  rw [blocks8, hdiv, List.range_succ_eq_map, List.map_cons, List.map_map]
  congr 1
  · rw [Nat.mul_zero, List.drop_zero, ← h, List.take_left]
  · rw [blocks8]
    apply List.map_congr_left
    intro i _
    simp only [Function.comp]
    have hd : (b8 ++ rest).drop (8 * Nat.succ i) = rest.drop (8 * i) := by
      rw [show 8 * Nat.succ i = b8.length + 8 * i by rw [h]; omega]
      exact List.drop_append (8 * i)
    rw [hd]

/-- The chunks of a concatenation of 8-byte blocks are exactly those blocks. -/
theorem blocks8_flatten (bl : List (List Nat)) (h : ∀ b ∈ bl, b.length = 8) :
    blocks8 bl.flatten = bl := by
  induction bl with
  | nil => rfl
  | cons b rest ih =>
    rw [List.flatten_cons, blocks8_cons b rest.flatten (h b (by simp))]
    rw [ih (fun x hx => h x (by simp [hx]))]

/-- Bytes below 256 survive the round trip through the bit array. -/
theorem bytes_bits_bytes (data : List Nat) (h : ∀ b ∈ data, b < 256) :
    bit_array_to_bytes (bytes_to_bit_array data) = data := by
  induction data with
  | nil => rfl
  | cons x xs ih =>
    rw [bytes_to_bit_array_cons, bit_array_to_bytes_append _ _ (bits_of_byte_length x)]
    rw [byte_of_bits_bits_of_byte x (h x (by simp)), ih (fun b hb => h b (by simp [hb]))]

/-- A bit array whose length is a multiple of 8 survives the round trip
through bytes. -/
theorem bits_bytes_bits (n : Nat) (bits : List Nat) (hlen : bits.length = 8 * n)
    (hb : ∀ x ∈ bits, x ≤ 1) : bytes_to_bit_array (bit_array_to_bytes bits) = bits := by
  induction n generalizing bits with
  | zero =>
    rw [List.eq_nil_of_length_eq_zero (by omega : bits.length = 0)]
    rfl
  | succ n ih =>
    have hsplit : bits.take 8 ++ bits.drop 8 = bits := List.take_append_drop 8 bits
    have ht8 : (bits.take 8).length = 8 := by rw [List.length_take]; omega
    have hrest : (bits.drop 8).length = 8 * n := by rw [List.length_drop]; omega
    conv_lhs => rw [← hsplit]
    rw [bit_array_to_bytes_append _ _ ht8, bytes_to_bit_array_cons]
    rw [bits_of_byte_byte_of_bits _ ht8 (fun x hx => hb x (List.mem_of_mem_take hx))]
    rw [ih (bits.drop 8) hrest (fun x hx => hb x (List.mem_of_mem_drop hx))]
    exact hsplit

/-! ## The cipher maps bits to bits -/

theorem getD_le_one (l : List Nat) (h : ∀ x ∈ l, x ≤ 1) (i : Nat) : l.getD i 0 ≤ 1 := by
  rw [List.getD_eq_getElem?_getD]
  rcases hlt : l[i]? with _ | x
  · simp
  · simp only [Option.getD_some]
    exact h x (List.getElem?_mem hlt)

theorem xor_le_one (x y : Nat) (hx : x ≤ 1) (hy : y ≤ 1) : x ^^^ y ≤ 1 := by
  interval_cases x <;> interval_cases y <;> decide

theorem xor_bits_le_one (a b : List Nat) (ha : ∀ x ∈ a, x ≤ 1) (hb : ∀ x ∈ b, x ≤ 1) :
    ∀ x ∈ xor_bits a b, x ≤ 1 := by
  intro x hx
  rw [xor_bits, List.mem_map] at hx
  obtain ⟨i, _, rfl⟩ := hx
  exact xor_le_one _ _ (getD_le_one a ha i) (getD_le_one b hb i)

theorem permute_le_one (b t : List Nat) (h : ∀ x ∈ b, x ≤ 1) :
    ∀ x ∈ permute b t, x ≤ 1 := by
  intro x hx
  rw [permute, List.mem_map] at hx
  obtain ⟨j, _, rfl⟩ := hx
  exact getD_le_one b h (j - 1)

theorem s_box_substitution_le_one (block : List Nat) :
    ∀ x ∈ s_box_substitution block, x ≤ 1 := by
  intro x hx
  rw [s_box_substitution, List.mem_flatten] at hx
  obtain ⟨l, hl, hxl⟩ := hx
  rw [List.mem_map] at hl
  obtain ⟨i, _, rfl⟩ := hl
  simp only [List.mem_map] at hxl
  obtain ⟨j, _, rfl⟩ := hxl
  exact and_one_le_one _

theorem f_function_le_one (r k : List Nat) : ∀ x ∈ f_function r k, x ≤ 1 :=
  permute_le_one _ _ (s_box_substitution_le_one _)

theorem foldl_des_round_le_one (ks : List (List Nat)) (lr : List Nat × List Nat)
    (h1 : ∀ x ∈ lr.1, x ≤ 1) (h2 : ∀ x ∈ lr.2, x ≤ 1) :
    (∀ x ∈ (ks.foldl des_round lr).1, x ≤ 1) ∧ (∀ x ∈ (ks.foldl des_round lr).2, x ≤ 1) := by
  induction ks generalizing lr with
  | nil => exact ⟨h1, h2⟩
  | cons k rest ih =>
    simp only [List.foldl_cons]
    exact ih (des_round lr k) h2 (xor_bits_le_one _ _ h1 (f_function_le_one _ _))

theorem encrypt_block_le_one (ks : List (List Nat)) (b : List Nat)
    (hb : ∀ x ∈ b, x ≤ 1) : ∀ x ∈ encrypt_block ks b, x ≤ 1 := by
  have hip := permute_le_one b IP hb
  have h := foldl_des_round_le_one ks ((permute b IP).take 32, (permute b IP).drop 32)
    (fun x hx => hip x (List.mem_of_mem_take hx)) (fun x hx => hip x (List.mem_of_mem_drop hx))
  apply permute_le_one
  intro x hx
  rcases List.mem_append.mp hx with h' | h'
  · exact h.2 x h'
  · exact h.1 x h'

/-! ## Message-level lemmas -/

theorem blocks8_length (data : List Nat) : (blocks8 data).length = (data.length + 7) / 8 := by
  simp [blocks8]

theorem blocks8_mem_length (data : List Nat) (h : data.length % 8 = 0) :
    ∀ b ∈ blocks8 data, b.length = 8 := by
  intro b hb
  rw [blocks8, List.mem_map] at hb
  obtain ⟨i, hi, rfl⟩ := hb
  rw [List.mem_range] at hi
  rw [List.length_take, List.length_drop]
  omega

theorem blocks8_mem_mem (data : List Nat) (b : List Nat) (hb : b ∈ blocks8 data) :
    ∀ x ∈ b, x ∈ data := by
  rw [blocks8, List.mem_map] at hb
  obtain ⟨i, _, rfl⟩ := hb
  intro x hx
  exact List.mem_of_mem_drop (List.mem_of_mem_take hx)

theorem flatten_blocks8 (n : Nat) (data : List Nat) (h : data.length = 8 * n) :
    (blocks8 data).flatten = data := by
  induction n generalizing data with
  | zero =>
    rw [List.eq_nil_of_length_eq_zero (by omega : data.length = 0)]
    rfl
  | succ n ih =>
    have hsplit : data.take 8 ++ data.drop 8 = data := List.take_append_drop 8 data
    have ht8 : (data.take 8).length = 8 := by rw [List.length_take]; omega
    have hrest : (data.drop 8).length = 8 * n := by rw [List.length_drop]; omega
    conv_lhs => rw [← hsplit]
    rw [blocks8_cons _ _ ht8, List.flatten_cons, ih (data.drop 8) hrest]
    exact hsplit

theorem flatten_map_length_eight (f : List Nat → List Nat) (hl : ∀ b, (f b).length = 8)
    (bl : List (List Nat)) : ((bl.map f).flatten).length = 8 * bl.length := by
  induction bl with
  | nil => rfl
  | cons b rest ih =>
    rw [List.map_cons, List.flatten_cons, List.length_append, ih, hl, List.length_cons]
    ring

theorem encrypted_block_bytes_length (ks : List (List Nat)) (b : List Nat) :
    (bit_array_to_bytes (encrypt_block ks (bytes_to_bit_array b))).length = 8 := by
  rw [bit_array_to_bytes_length, encrypt_block_length]

theorem decrypted_block_bytes_length (ks : List (List Nat)) (b : List Nat) :
    (bit_array_to_bytes (decrypt_block ks (bytes_to_bit_array b))).length = 8 := by
  rw [bit_array_to_bytes_length, decrypt_block_length]

/-- One 8-byte block of bytes below 256 survives encryption followed by
decryption, through all the byte/bit conversions. -/
theorem block_roundtrip_bytes (ks : List (List Nat)) (b : List Nat)
    (hlen : b.length = 8) (hb : ∀ x ∈ b, x < 256) :
    bit_array_to_bytes (decrypt_block ks (bytes_to_bit_array
      (bit_array_to_bytes (encrypt_block ks (bytes_to_bit_array b))))) = b := by
  have h64 : (bytes_to_bit_array b).length = 64 := by
    rw [bytes_to_bit_array_length, hlen]
  rw [bits_bytes_bits 8 _ (encrypt_block_length ks _)
    (encrypt_block_le_one ks _ (bytes_to_bit_array_le_one b))]
  rw [decrypt_block_encrypt_block ks _ h64]
  exact bytes_bits_bytes b hb

/-! ## Padding lemmas -/

theorem pad_of_mod_eq (m : List Nat) (h : m.length % 8 = 0) : pad m = m := by
  rw [pad]
  simp only [h]
  norm_num

theorem pad_of_mod_ne (m : List Nat) (h : m.length % 8 ≠ 0) :
    pad m = m ++ List.replicate (8 - m.length % 8) (8 - m.length % 8) := by
  rw [pad]
  have : 8 - m.length % 8 < 8 := by omega
  simp only [this, if_pos]

theorem pad_length (m : List Nat) : (pad m).length = 8 * ((m.length + 7) / 8) := by
  by_cases h : m.length % 8 = 0
  · rw [pad_of_mod_eq m h]; omega
  · rw [pad_of_mod_ne m h, List.length_append, List.length_replicate]; omega

theorem pad_mem_lt (m : List Nat) (hm : ∀ b ∈ m, b < 256) : ∀ b ∈ pad m, b < 256 := by
  intro b hb
  by_cases h : m.length % 8 = 0
  · rw [pad_of_mod_eq m h] at hb; exact hm b hb
  · rw [pad_of_mod_ne m h] at hb
    rcases List.mem_append.mp hb with h' | h'
    · exact hm b h'
    · rw [List.eq_of_mem_replicate h']; omega

/-- Stripping the padding appended by `pad` recovers the message, when padding
was actually appended (message length not a multiple of 8). -/
theorem strip_padding_pad (m : List Nat) (h : m.length % 8 ≠ 0) :
    strip_padding (pad m) = m := by
  set p := 8 - m.length % 8 with hp
  have hp1 : 1 ≤ p := by omega
  have hp7 : p < 8 := by omega
  rw [pad_of_mod_ne m h, ← hp]
  have hlen : (m ++ List.replicate p p).length = m.length + p := by
    rw [List.length_append, List.length_replicate]
  have hlast : (m ++ List.replicate p p).getD ((m ++ List.replicate p p).length - 1) 0 = p := by
    rw [hlen, List.getD_eq_getElem?_getD,
      List.getElem?_append_right (by omega : m.length ≤ m.length + p - 1)]
    rw [List.getElem?_replicate]
    have : m.length + p - 1 - m.length < p := by omega
    simp [this]
  have hdrop : (m ++ List.replicate p p).drop ((m ++ List.replicate p p).length - p) =
      List.replicate p p := by
    rw [hlen, show m.length + p - p = m.length by omega, List.drop_left]
  rw [strip_padding, hlast]
  have hcond : p < 8 ∧ ∀ b ∈ (if p = 0 then m ++ List.replicate p p
      else (m ++ List.replicate p p).drop ((m ++ List.replicate p p).length - p)), b = p := by
    refine ⟨hp7, ?_⟩
    rw [if_neg (by omega : ¬ p = 0), hdrop]
    intro b hb
    exact List.eq_of_mem_replicate hb
  rw [if_pos hcond, if_neg (by omega : ¬ p = 0), hlen,
    show m.length + p - p = m.length by omega, List.take_left]

theorem encrypt_length (key m : List Nat) :
    (encrypt key m).length = 8 * ((m.length + 7) / 8) := by
  simp only [encrypt]
  rw [flatten_map_length_eight _
    (fun b => encrypted_block_bytes_length (generate_subkeys (bytes_to_bit_array key)) b)]
  rw [blocks8_length, pad_length]
  omega

/-- Full round trip for messages whose length is not a multiple of 8:
padding is appended, each block is inverted, and the padding is stripped. -/
theorem decrypt_encrypt (key m : List Nat) (hm : ∀ b ∈ m, b < 256)
    (h : m.length % 8 ≠ 0) : decrypt key (encrypt key m) = .ok m := by
  set ks := generate_subkeys (bytes_to_bit_array key) with hks
  have henc : encrypt key m = ((blocks8 (pad m)).map
      (fun b => bit_array_to_bytes (encrypt_block ks (bytes_to_bit_array b)))).flatten := rfl
  have hctlen : (encrypt key m).length = 8 * (blocks8 (pad m)).length := by
    rw [henc]
    exact flatten_map_length_eight _ (fun b => encrypted_block_bytes_length ks b) _
  have hblocks : blocks8 (encrypt key m) = (blocks8 (pad m)).map
      (fun b => bit_array_to_bytes (encrypt_block ks (bytes_to_bit_array b))) := by
    rw [henc]
    apply blocks8_flatten
    intro b hb
    rw [List.mem_map] at hb
    obtain ⟨c, _, rfl⟩ := hb
    exact encrypted_block_bytes_length ks c
  have hpadmod : (pad m).length % 8 = 0 := by rw [pad_length]; omega
  have hpt : ((blocks8 (encrypt key m)).map
      (fun b => bit_array_to_bytes (decrypt_block ks (bytes_to_bit_array b)))).flatten
      = pad m := by
    rw [hblocks, List.map_map]
    have hcongr : (blocks8 (pad m)).map
        ((fun b => bit_array_to_bytes (decrypt_block ks (bytes_to_bit_array b))) ∘
         (fun b => bit_array_to_bytes (encrypt_block ks (bytes_to_bit_array b))))
        = (blocks8 (pad m)).map (fun b => b) := by
      apply List.map_congr_left
      intro b hb
      simp only [Function.comp]
      exact block_roundtrip_bytes ks b (blocks8_mem_length _ hpadmod b hb)
        (fun x hx => pad_mem_lt m hm x (blocks8_mem_mem _ b hb x hx))
    rw [hcongr, List.map_id']
    exact flatten_blocks8 ((m.length + 7) / 8) (pad m) (pad_length m)
  have hptlen : (pad m).length ≠ 0 := by rw [pad_length]; omega
  rw [decrypt, if_neg (by rw [hctlen]; omega : ¬ (encrypt key m).length % 8 ≠ 0)]
  simp only [← hks, hpt]
  rw [if_neg hptlen, strip_padding_pad m h]

/-! ## Key schedule characterization -/

theorem left_circular_shift_eq_rotate (x : List Nat) (s : Nat) (h : s ≤ x.length) :
    left_circular_shift x s = x.rotate s := by
  rw [left_circular_shift, List.rotate_eq_drop_append_take h]

theorem left_circular_shift_length (x : List Nat) (s : Nat) :
    (left_circular_shift x s).length = x.length := by
  rw [left_circular_shift, List.length_append, List.length_drop, List.length_take]
  omega

theorem subkey_loop_eq (shifts : List Nat) (c d : List Nat)
    (hc : c.length = 28) (hd : d.length = 28) (hs : ∀ s ∈ shifts, s ≤ 28) :
    subkey_loop c d shifts = (List.range shifts.length).map
      (fun i => permute ((c.rotate ((shifts.take (i + 1)).sum)) ++
                        (d.rotate ((shifts.take (i + 1)).sum))) PC2) := by
  induction shifts generalizing c d with
  | nil => rfl
  | cons s rest ih =>
    have hs28 : s ≤ 28 := hs s (by simp)
    have hc2 : left_circular_shift c s = c.rotate s :=
      left_circular_shift_eq_rotate c s (by omega)
    have hd2 : left_circular_shift d s = d.rotate s :=
      left_circular_shift_eq_rotate d s (by omega)
    rw [subkey_loop]
    simp only [hc2, hd2]
    rw [List.length_cons, List.range_succ_eq_map, List.map_cons, List.map_map]
    congr 1
    rw [ih (c.rotate s) (d.rotate s) (by rw [List.length_rotate, hc])
      (by rw [List.length_rotate, hd]) (fun x hx => hs x (by simp [hx]))]
    apply List.map_congr_left
    intro i _
    simp only [Function.comp]
    rw [List.rotate_rotate, List.rotate_rotate]
    rw [show (s :: rest).take (Nat.succ i + 1) = s :: rest.take (i + 1) from rfl]
    rw [List.sum_cons]

theorem generate_subkeys_eq_spec (key : List Nat) :
    generate_subkeys key = (List.range 16).map (fun i => spec_subkey key (i + 1)) := by
  have htake : ((permute key PC1).take 28).length = 28 := by
    rw [List.length_take, permute_length]
    decide
  have hdrop : ((permute key PC1).drop 28).length = 28 := by
    rw [List.length_drop, permute_length]
    decide
  rw [generate_subkeys]
  rw [subkey_loop_eq SHIFT_SCHEDULE _ _ htake hdrop (by decide)]
  have hsum : ∀ j, j < 16 → (SHIFT_SCHEDULE.take (j + 1)).sum = spec_total_shift (j + 1) := by
    decide
  rw [show SHIFT_SCHEDULE.length = 16 from rfl]
  apply List.map_congr_left
  intro i hi
  rw [hsum i (List.mem_range.mp hi)]
  rfl

/-! ## Characterization of the padding strip -/

/-- When the last byte is 0 and the whole buffer is zero, the slice
`plaintext[:-0]` drops everything. -/
theorem strip_padding_zero_all (pt : List Nat) (hp : pt.getD (pt.length - 1) 0 = 0)
    (hall : ∀ b ∈ pt, b = 0) : strip_padding pt = [] := by
  simp only [strip_padding, hp]
  simp [hall]
  intro x hx hne
  exact absurd (hall x hx) hne

/-- When the last byte is 0 but some byte is non-zero, the buffer is returned
unchanged. -/
theorem strip_padding_zero_not_all (pt : List Nat) (hp : pt.getD (pt.length - 1) 0 = 0)
    (hall : ¬ ∀ b ∈ pt, b = 0) : strip_padding pt = pt := by
  simp only [strip_padding, hp]
  simp [hall]

/-- When the last byte is non-zero, the code's strip agrees exactly with the
specification's rule. -/
theorem strip_padding_of_last_ne_zero (pt : List Nat) (hp : pt.getD (pt.length - 1) 0 ≠ 0) :
    strip_padding pt = spec_strip pt := by
  rw [strip_padding, spec_strip]
  simp only [if_neg hp]

/-- `strip_padding` agrees with the specification's rule except when the last
byte is 0 and the whole buffer is zero, in which case Python's `[:-0]` slice
drops everything. -/
theorem strip_padding_characterization (pt : List Nat) :
    strip_padding pt =
      if pt.getD (pt.length - 1) 0 = 0 ∧ ∀ b ∈ pt, b = 0 then [] else spec_strip pt := by
  by_cases hp : pt.getD (pt.length - 1) 0 = 0
  · by_cases hall : ∀ b ∈ pt, b = 0
    · rw [if_pos ⟨hp, hall⟩, strip_padding_zero_all pt hp hall]
    · rw [if_neg (fun hc => hall hc.2), strip_padding_zero_not_all pt hp hall]
      rw [spec_strip]
      simp only [hp]
      simp
  · rw [if_neg (fun hc => hp hc.1), strip_padding_of_last_ne_zero pt hp]

/-! ## Decrypt on well-formed ciphertext -/

theorem decrypted_buffer_length (key ct : List Nat) :
    (((blocks8 ct).map (fun b => bit_array_to_bytes
      (decrypt_block (generate_subkeys (bytes_to_bit_array key)) (bytes_to_bit_array b)))).flatten).length
      = 8 * ((ct.length + 7) / 8) := by
  rw [flatten_map_length_eight _
    (fun b => decrypted_block_bytes_length (generate_subkeys (bytes_to_bit_array key)) b)]
  rw [blocks8_length]

/-- On a non-empty ciphertext whose length is a multiple of 8, `decrypt`
reaches the padding strip and returns it applied to the blockwise decryption. -/
theorem decrypt_eq_strip (key ct : List Nat) (hlen : ct.length % 8 = 0) (hne : ct ≠ []) :
    decrypt key ct = .ok (strip_padding (((blocks8 ct).map (fun b => bit_array_to_bytes
      (decrypt_block (generate_subkeys (bytes_to_bit_array key)) (bytes_to_bit_array b)))).flatten)) := by
  have hptlen := decrypted_buffer_length key ct
  have hctpos : ct.length ≠ 0 := fun h => hne (List.eq_nil_of_length_eq_zero h)
  rw [decrypt, if_neg (by omega : ¬ ct.length % 8 ≠ 0)]
  rw [if_neg (by rw [hptlen]; omega)]

theorem getD_zero_of_all_zero (l : List Nat) (h : ∀ x ∈ l, x = 0) (i : Nat) :
    l.getD i 0 = 0 := by
  rw [List.getD_eq_getElem?_getD]
  rcases hlt : l[i]? with _ | x
  · simp
  · simp only [Option.getD_some]
    exact h x (List.getElem?_mem hlt)

/-! ## Claim theorems -/

set_option maxRecDepth 100000

/-- Claim C1, counterexample: for the empty message, `decrypt (encrypt [])`
does not return the message — `encrypt []` adds no padding and produces the
empty ciphertext, on which `decrypt` raises `IndexError`. -/
theorem C1_counterexample :
    decrypt test_key (encrypt test_key []) ≠ .ok ([] : List Nat) := by
  rw [show decrypt test_key (encrypt test_key []) = .error .indexError from rfl]
  intro h
  exact Except.noConfusion h

/-- Claim C1 as amended: for every 8-byte key and every message of bytes
below 256 whose length is NOT a multiple of 8, decrypting the encryption
returns the message exactly. -/
theorem C1_roundtrip (key m : List Nat) (hkey : key.length = 8)
    (hm : ∀ b ∈ m, b < 256) (hlen : m.length % 8 ≠ 0) :
    decrypt key (encrypt key m) = .ok m :=
  decrypt_encrypt key m hm hlen

/-- Witness for the amended claim C1 at the one-byte message `[72]`. -/
theorem C1_witness :
    test_key.length = 8 ∧ (∀ b ∈ [72], b < 256) ∧ [72].length % 8 ≠ 0 ∧
      decrypt test_key (encrypt test_key [72]) = .ok [72] :=
  ⟨by decide, by decide, by decide,
    C1_roundtrip test_key [72] (by decide) (by decide) (by decide)⟩

/-- Claim C2: with key bytes `0x133457799BBCDFF1`, encrypting the block
`0x0123456789ABCDEF` yields exactly the published ciphertext
`0x85E813540F0AB405`. -/
theorem C2_known_answer :
    bit_array_to_bytes (encrypt_block (generate_subkeys (bytes_to_bit_array test_key))
      (bytes_to_bit_array [0x01, 0x23, 0x45, 0x67, 0x89, 0xAB, 0xCD, 0xEF]))
      = [0x85, 0xE8, 0x13, 0x54, 0x0F, 0x0A, 0xB4, 0x05] := by
  decide

/-- Claim C3: for every 8-byte key and every 64-bit block, decrypting the
encrypted block (same rounds, subkeys consumed in reverse order) returns
the block. -/
theorem C3_block_roundtrip (key b : List Nat) (hkey : key.length = 8)
    (hb : b.length = 64) :
    decrypt_block (generate_subkeys (bytes_to_bit_array key))
      (encrypt_block (generate_subkeys (bytes_to_bit_array key)) b) = b :=
  decrypt_block_encrypt_block _ b hb

/-- Witness for claim C3 at the test key and the bit array of the test
plaintext block. -/
theorem C3_witness :
    test_key.length = 8 ∧
      (bytes_to_bit_array [0x01, 0x23, 0x45, 0x67, 0x89, 0xAB, 0xCD, 0xEF]).length = 64 ∧
      decrypt_block (generate_subkeys (bytes_to_bit_array test_key))
        (encrypt_block (generate_subkeys (bytes_to_bit_array test_key))
          (bytes_to_bit_array [0x01, 0x23, 0x45, 0x67, 0x89, 0xAB, 0xCD, 0xEF]))
        = bytes_to_bit_array [0x01, 0x23, 0x45, 0x67, 0x89, 0xAB, 0xCD, 0xEF] :=
  ⟨by decide, by decide, C3_block_roundtrip test_key _ (by decide) (by decide)⟩

/-- Claim C4, counterexample: `encrypt` of the empty message produces 0
bytes, not the 8 bytes the claim requires. -/
theorem C4_counterexample : (encrypt test_key []).length = 0 ∧ (0 : Nat) ≠ 8 :=
  ⟨rfl, by decide⟩

/-- Claim C4 as amended: the ciphertext length is the plaintext length
rounded up to a (possibly zero) multiple of 8; a plaintext whose length is
already a multiple of 8 gains NO padding block, and the empty plaintext
encrypts to the empty ciphertext. -/
theorem C4_encrypt_length (key m : List Nat) :
    (encrypt key m).length = 8 * ((m.length + 7) / 8) :=
  encrypt_length key m

/-- Claim C5: evaluating the code at the inputs in question.  A 7-byte
buffer hits the explicit length check and raises `ValueError`, but the
empty buffer passes the `% 8` check and instead crashes with `IndexError`
at `plaintext[-1]`, not with the invalid-input error the claim states. -/
theorem C5_error_behavior :
    decrypt test_key (List.replicate 7 0) = .error .valueError ∧
      decrypt test_key [] = .error .indexError :=
  ⟨rfl, rfl⟩

/-- Claim C6, counterexample: the ciphertext `0x948A43F98A834F7E` decrypts
blockwise (under the test key) to eight zero bytes; the claim's rule with
`P = 0` drops zero bytes and leaves the buffer unchanged, but `decrypt`
returns the empty string. -/
theorem C6_counterexample :
    decrypt test_key [148, 138, 67, 249, 138, 131, 79, 126] = .ok [] ∧
      spec_strip (List.replicate 8 0) = List.replicate 8 0 ∧
      ([] : List Nat) ≠ List.replicate 8 0 := by
  refine ⟨rfl, by decide, by decide⟩

/-- Claim C6 as amended: the strip step follows the claim's rule except when
the last byte is 0: then Python's `plaintext[-0:]` is the whole buffer and
`plaintext[:-0]` is empty, so an all-zero buffer is dropped entirely, and a
buffer ending in 0 with a non-zero byte is left unchanged. -/
theorem C6_strip_rule (pt : List Nat) :
    strip_padding pt =
      if pt.getD (pt.length - 1) 0 = 0 ∧ ∀ b ∈ pt, b = 0 then [] else spec_strip pt :=
  strip_padding_characterization pt

/-- Claim C7: each subkey is PC2 applied to the concatenation of the two
28-bit halves, each left-rotated by the accumulated per-round shift amounts
(1 bit in rounds 1, 2, 9, 16 and 2 bits otherwise). -/
theorem C7_key_schedule (key : List Nat) :
    generate_subkeys key = (List.range 16).map (fun i => spec_subkey key (i + 1)) :=
  generate_subkeys_eq_spec key

/-- Claim C8: for every 8-byte key the schedule holds exactly 16 subkeys of
exactly 48 bits each. -/
theorem C8_subkey_count_width (key : List Nat) (hkey : key.length = 8) :
    (generate_subkeys (bytes_to_bit_array key)).length = 16 ∧
      ∀ sk ∈ generate_subkeys (bytes_to_bit_array key), sk.length = 48 := by
  constructor
  · rw [generate_subkeys_eq_spec]
    simp
  · intro sk hsk
    rw [generate_subkeys_eq_spec, List.mem_map] at hsk
    obtain ⟨i, _, rfl⟩ := hsk
    rw [spec_subkey, permute_length]
    decide

/-- Witness for claim C8 at the test key. -/
theorem C8_witness :
    test_key.length = 8 ∧
      ((generate_subkeys (bytes_to_bit_array test_key)).length = 16 ∧
        ∀ sk ∈ generate_subkeys (bytes_to_bit_array test_key), sk.length = 48) :=
  ⟨by decide, C8_subkey_count_width test_key (by decide)⟩

/-- Claim C9: `IP` and `IP_INV` are exact inverse permutations on every
64-bit sequence. -/
theorem C9_IP_inverse (b : List Nat) (hb : b.length = 64) :
    permute (permute b IP) IP_INV = b :=
  permute_IP_IP_INV b hb

/-- Witness for claim C9 at the bit array of the test key. -/
theorem C9_witness :
    (bytes_to_bit_array test_key).length = 64 ∧
      permute (permute (bytes_to_bit_array test_key) IP) IP_INV
        = bytes_to_bit_array test_key :=
  ⟨by decide, C9_IP_inverse _ (by decide)⟩

/-- Claim C10: if the blockwise decryption of a well-formed non-empty
ciphertext is entirely zero bytes, `decrypt` returns the empty string
(`P = 0` passes the strip condition and `plaintext[:-0]` drops everything);
if the last decrypted byte is 0 but some byte is non-zero, the buffer is
returned unchanged. -/
theorem C10_zero_strip (key ct : List Nat) (hlen : ct.length % 8 = 0) (hne : ct ≠ []) :
    ((∀ b ∈ decrypted_buffer key ct, b = 0) → decrypt key ct = .ok []) ∧
      ((decrypted_buffer key ct).getD ((decrypted_buffer key ct).length - 1) 0 = 0 →
        (∃ b ∈ decrypted_buffer key ct, b ≠ 0) →
        decrypt key ct = .ok (decrypted_buffer key ct)) := by
  have hshape := decrypt_eq_strip key ct hlen hne
  constructor
  · intro hall
    rw [hshape]
    rw [show ((blocks8 ct).map (fun b => bit_array_to_bytes
      (decrypt_block (generate_subkeys (bytes_to_bit_array key)) (bytes_to_bit_array b)))).flatten
      = decrypted_buffer key ct from rfl]
    rw [strip_padding_zero_all _ (getD_zero_of_all_zero _ hall _) hall]
  · intro hlast hex
    rw [hshape]
    rw [show ((blocks8 ct).map (fun b => bit_array_to_bytes
      (decrypt_block (generate_subkeys (bytes_to_bit_array key)) (bytes_to_bit_array b)))).flatten
      = decrypted_buffer key ct from rfl]
    have hnall : ¬ ∀ b ∈ decrypted_buffer key ct, b = 0 := by
      obtain ⟨b, hb, hbne⟩ := hex
      exact fun h => hbne (h b hb)
    rw [strip_padding_zero_not_all _ hlast hnall]

/-- Witness for claim C10 at the ciphertext `0x948A43F98A834F7E` under the
test key. -/
theorem C10_witness :
    ([148, 138, 67, 249, 138, 131, 79, 126] : List Nat).length % 8 = 0 ∧
      ([148, 138, 67, 249, 138, 131, 79, 126] : List Nat) ≠ [] ∧
      (((∀ b ∈ decrypted_buffer test_key [148, 138, 67, 249, 138, 131, 79, 126], b = 0) →
          decrypt test_key [148, 138, 67, 249, 138, 131, 79, 126] = .ok []) ∧
        ((decrypted_buffer test_key [148, 138, 67, 249, 138, 131, 79, 126]).getD
            ((decrypted_buffer test_key [148, 138, 67, 249, 138, 131, 79, 126]).length - 1) 0 = 0 →
          (∃ b ∈ decrypted_buffer test_key [148, 138, 67, 249, 138, 131, 79, 126], b ≠ 0) →
          decrypt test_key [148, 138, 67, 249, 138, 131, 79, 126]
            = .ok (decrypted_buffer test_key [148, 138, 67, 249, 138, 131, 79, 126]))) :=
  ⟨by decide, by decide,
    C10_zero_strip test_key [148, 138, 67, 249, 138, 131, 79, 126] (by decide) (by decide)⟩

end DES
